import Mathlib

/-!
A verification development for the beehive behavior-tree library
(include/beehive/beehive.hpp).

The C++ header stores each tree node as a process function together with a
vector of child nodes.  The built-in composite policies (sequence, selector)
and decorator policies (forwarder, inverter, succeeder) as well as the leaf
adapters (Status-, bool- and void-returning process functions) are embedded
below as Lean functions.  A C++ process function mutates the context by
reference and returns a Status; here it is a function C → Status × C.  A
fired assert (the one-child check of make_branch for decorators) is modelled
as the result none, so evaluation returns Option (Status × C).

The Builder is embedded as a stack machine over open frames, mirroring
BuilderBase: the implicit root frame is a DECORATOR frame holding the
forwarder policy, adding a child to a decorator frame that already has one
is a fired assert (none), end() requires a nonempty child list, and build()
requires exactly the root frame to be open with at least one child.
-/

namespace Beehive

/-- The status returned by process functions (enum class Status). -/
inductive Status where
  | FAILURE
  | RUNNING
  | SUCCESS
deriving DecidableEq

/-- The built-in composite policies of the header (sequence, selector). -/
inductive CompositeKind where
  | sequence
  | selector
deriving DecidableEq

/-- The built-in decorator policies of the header (forwarder, inverter, succeeder). -/
inductive DecoratorKind where
  | forwarder
  | inverter
  | succeeder
deriving DecidableEq

/-- A tree node: a process function plus children.  The process function of a
node is one of the shapes the header actually constructs: a leaf function
(make_leaf), or make_branch applied to a built-in composite or decorator
policy over the node's child vector. -/
inductive Node (C : Type) where
  | leaf (f : C → Status × C)
  | composite (k : CompositeKind) (children : List (Node C))
  | decorator (k : DecoratorKind) (children : List (Node C))

mutual

/-- Node::process dispatching into the stored process function.
make_leaf runs the leaf function; make_branch(Composite) runs the composite
policy on the child vector; make_branch(Decorator) asserts that there is
exactly one child (modelled as none otherwise) and runs the decorator policy
on it.  The inverter returns RUNNING unchanged and otherwise maps FAILURE to
SUCCESS and anything else to FAILURE; the succeeder runs the child and
returns SUCCESS. -/
def Node.process {C : Type} : Node C → C → Option (Status × C)
  | .leaf f, ctx => some (f ctx)
  | .composite .sequence children, ctx => sequenceEval children ctx
  | .composite .selector children, ctx => selectorEval children ctx
  | .decorator .forwarder [c], ctx => c.process ctx
  | .decorator .inverter [c], ctx =>
      match c.process ctx with
      | none => none
      | some (st, ctx2) =>
          if st = Status.RUNNING then some (st, ctx2)
          else some ((if st = Status.FAILURE then Status.SUCCESS else Status.FAILURE), ctx2)
  | .decorator .succeeder [c], ctx =>
      match c.process ctx with
      | none => none
      | some (_, ctx2) => some (Status.SUCCESS, ctx2)
  | .decorator _ [], _ => none
  | .decorator _ (_ :: _ :: _), _ => none
termination_by structural n _ => n

/-- The sequence composite of the header: run the children in order, stop at
the first status other than SUCCESS and return it, return SUCCESS if every
child returned SUCCESS. -/
def sequenceEval {C : Type} : List (Node C) → C → Option (Status × C)
  | [], ctx => some (Status.SUCCESS, ctx)
  | c :: rest, ctx =>
      match c.process ctx with
      | none => none
      | some (st, ctx2) =>
          if st ≠ Status.SUCCESS then some (st, ctx2) else sequenceEval rest ctx2
termination_by structural l _ => l

/-- The selector composite of the header: run the children in order, stop at
the first status other than FAILURE and return it, return FAILURE if every
child returned FAILURE. -/
def selectorEval {C : Type} : List (Node C) → C → Option (Status × C)
  | [], ctx => some (Status.FAILURE, ctx)
  | c :: rest, ctx =>
      match c.process ctx with
      | none => none
      | some (st, ctx2) =>
          if st ≠ Status.FAILURE then some (st, ctx2) else selectorEval rest ctx2
termination_by structural l _ => l

end

/-- The noop leaf of the header: always SUCCESS, context untouched. -/
def noop {C : Type} (ctx : C) : Status × C := (Status.SUCCESS, ctx)

/-- make_leaf(Leaf): a leaf node whose process function returns the Status
of the given function unchanged (the children-empty assert of make_leaf is
vacuous here because a leaf carries no children). -/
def make_leaf {C : Type} (f : C → Status × C) : Node C := Node.leaf f

/-- make_leaf(BoolLeaf): wraps a bool-returning function, translating true
to SUCCESS and false to FAILURE. -/
def make_leaf_bool {C : Type} (f : C → Bool × C) : Node C :=
  Node.leaf (fun ctx =>
    ((if (f ctx).1 then Status.SUCCESS else Status.FAILURE), (f ctx).2))

/-- make_leaf(VoidLeaf): wraps a function run purely for its side effect on
the context; the result is always SUCCESS. -/
def make_leaf_void {C : Type} (f : C → C) : Node C :=
  Node.leaf (fun ctx => (Status.SUCCESS, f ctx))

/-- The behavior tree: a root node. -/
structure Tree (C : Type) where
  root : Node C

/-- Tree::process forwards to the root node's process function. -/
def Tree.process {C : Type} (t : Tree C) (ctx : C) : Option (Status × C) :=
  t.root.process ctx

/-- The default-constructed Tree: its root is make_leaf(noop). -/
def emptyTree {C : Type} : Tree C := ⟨make_leaf noop⟩

mutual

/-- The decorator arity invariant of a built node: every DECORATOR node in
the tree has exactly one child (the invariant make_branch(Decorator)'s
one-child assert relies on). -/
def Node.wellFormed {C : Type} : Node C → Bool
  | .leaf _ => true
  | .composite _ children => childrenWF children
  | .decorator _ children => children.length == 1 && childrenWF children
termination_by structural n => n

/-- The decorator arity invariant for a list of children. -/
def childrenWF {C : Type} : List (Node C) → Bool
  | [] => true
  | c :: rest => c.wellFormed && childrenWF rest
termination_by structural l => l

end

/-- The frame type of BuilderBase (Type::COMPOSITE or Type::DECORATOR),
together with the policy the frame's node was opened with. -/
inductive BKind where
  | compositeK (k : CompositeKind)
  | decoratorK (k : DecoratorKind)
deriving DecidableEq

/-- Whether a frame is a DECORATOR frame. -/
def BKind.isDecorator : BKind → Bool
  | .decoratorK _ => true
  | .compositeK _ => false

/-- An open builder frame: the kind of the node under construction and the
children collected for it so far, in insertion order. -/
structure Frame (C : Type) where
  kind : BKind
  children : List (Node C)

/-- The builder: the stack of open frames, innermost first.  The last frame
is the implicit root frame, a DECORATOR frame holding the forwarder. -/
structure BuilderState (C : Type) where
  stack : List (Frame C)

/-- Builder(): one open frame, the implicit forwarder root, no children. -/
def initState {C : Type} : BuilderState C :=
  ⟨[⟨BKind.decoratorK DecoratorKind.forwarder, []⟩]⟩

/-- The node a closed frame denotes. -/
def buildFrame {C : Type} (f : Frame C) : Node C :=
  match f.kind with
  | .compositeK k => Node.composite k f.children
  | .decoratorK k => Node.decorator k f.children

/-- One fluent builder call.  close models end(). -/
inductive BuildOp (C : Type) where
  | composite (k : CompositeKind)
  | decorator (k : DecoratorKind)
  | leaf (f : C → Status × C)
  | boolLeaf (f : C → Bool × C)
  | voidLeaf (f : C → C)
  | tree (t : Tree C)
  | close

/-- Whether the call appends a child to the current frame (everything except
end()). -/
def BuildOp.addsChild {C : Type} : BuildOp C → Bool
  | .close => false
  | _ => true

/-- A side condition used for attached subtrees: the adding operations are
unconstrained except that an attached tree must itself satisfy the decorator
arity invariant (it was produced by a builder). -/
def BuildOp.wf {C : Type} : BuildOp C → Prop
  | .tree t => t.root.wellFormed = true
  | _ => True

/-- One step of BuilderBase.  The decorator one-child assert of _branch,
_leaf and tree (a DECORATOR frame may not receive a second child) and the
nonempty assert of end() are modelled as none. -/
def runOp {C : Type} (s : BuilderState C) (op : BuildOp C) : Option (BuilderState C) :=
  match s.stack with
  | [] => none
  | top :: rest =>
      match op with
      | .composite k =>
          if top.kind.isDecorator && !top.children.isEmpty then none
          else some ⟨⟨BKind.compositeK k, []⟩ :: top :: rest⟩
      | .decorator k =>
          if top.kind.isDecorator && !top.children.isEmpty then none
          else some ⟨⟨BKind.decoratorK k, []⟩ :: top :: rest⟩
      | .leaf f =>
          if top.kind.isDecorator && !top.children.isEmpty then none
          else some ⟨{ top with children := top.children ++ [make_leaf f] } :: rest⟩
      | .boolLeaf f =>
          if top.kind.isDecorator && !top.children.isEmpty then none
          else some ⟨{ top with children := top.children ++ [make_leaf_bool f] } :: rest⟩
      | .voidLeaf f =>
          if top.kind.isDecorator && !top.children.isEmpty then none
          else some ⟨{ top with children := top.children ++ [make_leaf_void f] } :: rest⟩
      | .tree t =>
          if top.kind.isDecorator && !top.children.isEmpty then none
          else some ⟨{ top with children := top.children ++ [t.root] } :: rest⟩
      | .close =>
          if top.children.isEmpty then none
          else
            match rest with
            | [] => some ⟨[top]⟩
            | parent :: rest2 =>
                some ⟨{ parent with children := parent.children ++ [buildFrame top] } :: rest2⟩

/-- Run a list of builder calls. -/
def runOps {C : Type} (s : BuilderState C) : List (BuildOp C) → Option (BuilderState C)
  | [] => some s
  | op :: ops =>
      match runOp s op with
      | none => none
      | some s2 => runOps s2 ops

/-- Builder::build: asserts that only the root frame is open (build on a
sub-builder is assert(false)) and that the root has at least one child, then
freezes the accumulated nodes into a Tree. -/
def buildTree {C : Type} (s : BuilderState C) : Option (Tree C) :=
  match s.stack with
  | [f] => if f.children.isEmpty then none else some ⟨buildFrame f⟩
  | _ => none

/-- The whole fluent chain: run the calls from a fresh builder, then build. -/
def buildOf {C : Type} (ops : List (BuildOp C)) : Option (Tree C) :=
  match runOps initState ops with
  | none => none
  | some s => buildTree s

/-- A run of children which are processed in order and all return the given
status, threading the context from the first argument to the second. -/
inductive ThreadAll {C : Type} (target : Status) : List (Node C) → C → C → Prop where
  | nil (ctx : C) : ThreadAll target [] ctx ctx
  | cons {c : Node C} {rest : List (Node C)} {ctx ctx1 ctx2 : C} :
      c.process ctx = some (target, ctx1) → ThreadAll target rest ctx1 ctx2 →
      ThreadAll target (c :: rest) ctx ctx2

/-- Modelled from the spec: one record of the contiguous depth-first node
store (the node-store implementation with stored child and descendant counts
is not part of the sources; only its tests appear).  Each record carries the
node's child count and its stored subtree size bookkeeping. -/
structure StoredNode where
  child_count : Nat
  descendent_count : Nat
deriving DecidableEq

mutual

/-- Modelled from the spec: the stored descendant count of a node, the
number of nodes in its subtree other than itself. -/
def Node.descendent_count {C : Type} : Node C → Nat
  | .leaf _ => 0
  | .composite _ children => descListCount children
  | .decorator _ children => descListCount children
termination_by structural n => n

/-- Modelled from the spec: the total number of store entries contributed by
a list of children (each child contributes itself plus its descendants). -/
def descListCount {C : Type} : List (Node C) → Nat
  | [] => 0
  | c :: rest => 1 + c.descendent_count + descListCount rest
termination_by structural l => l

end

mutual

/-- Modelled from the spec: the contiguous depth-first pre-order node store
of a tree, one record per node, each carrying its child count and its
stored descendant count. -/
def Node.flatten {C : Type} : Node C → List StoredNode
  | .leaf _ => [⟨0, 0⟩]
  | .composite _ children => ⟨children.length, descListCount children⟩ :: flattenList children
  | .decorator _ children => ⟨children.length, descListCount children⟩ :: flattenList children
termination_by structural n => n

/-- Modelled from the spec: the store entries of a list of subtrees, in
depth-first pre-order. -/
def flattenList {C : Type} : List (Node C) → List StoredNode
  | [] => []
  | c :: rest => c.flatten ++ flattenList rest
termination_by structural l => l

end

/-- The kind of the implicit root frame at the bottom of the builder stack. -/
def rootFrameKind {C : Type} : List (Frame C) → Option BKind
  | [] => none
  | [f] => some f.kind
  | _ :: g :: rest => rootFrameKind (g :: rest)

/-- The decorator child-count invariant of the builder stack: the stack is
nonempty, the open frame on top has at most one child if it is a DECORATOR
frame, and every enclosing DECORATOR frame has no child yet (its single
child is the currently open subtree, appended when that subtree is closed). -/
def DecInv {C : Type} : List (Frame C) → Prop
  | [] => False
  | top :: rest =>
      (top.kind.isDecorator = true → top.children.length ≤ 1) ∧
      (∀ f ∈ rest, f.kind.isDecorator = true → f.children = [])

/-- Every child collected in any open frame satisfies the decorator arity
invariant. -/
def WFInv {C : Type} (stack : List (Frame C)) : Prop :=
  ∀ f ∈ stack, childrenWF f.children = true

/-- Whether a node is a forwarder decorator with exactly one child, the
shape of the implicit root the Builder constructs. -/
def isForwarderSingleton {C : Type} : Node C → Bool
  | .decorator .forwarder [_] => true
  | _ => false

/-- First leaf of the resumption test: increments its visit counter and
returns FAILURE on every visit after the first, SUCCESS on the first. -/
def resumeLeaf0 (v : Nat × Nat × Nat) : Status × (Nat × Nat × Nat) :=
  ((if v.1 + 1 > 1 then Status.FAILURE else Status.SUCCESS), (v.1 + 1, v.2.1, v.2.2))

/-- Second leaf of the resumption test: increments its visit counter and
returns RUNNING on the first visit, SUCCESS afterwards. -/
def resumeLeaf1 (v : Nat × Nat × Nat) : Status × (Nat × Nat × Nat) :=
  ((if v.2.1 + 1 > 1 then Status.SUCCESS else Status.RUNNING), (v.1, v.2.1 + 1, v.2.2))

/-- Third leaf of the resumption test: counts its visits and returns true. -/
def resumeLeaf2 (v : Nat × Nat × Nat) : Bool × (Nat × Nat × Nat) :=
  (true, (v.1, v.2.1, v.2.2 + 1))

/-- The builder calls of the repository's ResumePendingTest: a sequence of
the three counting leaves. -/
def resumeOps : List (BuildOp (Nat × Nat × Nat)) :=
  [BuildOp.composite CompositeKind.sequence,
   BuildOp.leaf resumeLeaf0,
   BuildOp.leaf resumeLeaf1,
   BuildOp.boolLeaf resumeLeaf2,
   BuildOp.close]

/-- The tree those calls build. -/
def resumeTree : Tree (Nat × Nat × Nat) :=
  ⟨Node.decorator DecoratorKind.forwarder
    [Node.composite CompositeKind.sequence
      [make_leaf resumeLeaf0, make_leaf resumeLeaf1, make_leaf_bool resumeLeaf2]]⟩

/-- A sample leaf process function used for concrete builder runs. -/
def sampleLeafFn (n : Nat) : Status × Nat := (Status.SUCCESS, n)

/-- The sample leaf node. -/
def sampleLeaf : Node Nat := make_leaf sampleLeafFn

/-- A one-leaf fluent chain. -/
def sampleOps : List (BuildOp Nat) := [BuildOp.leaf sampleLeafFn]

/-- The builder state after running sampleOps. -/
def sampleState : BuilderState Nat :=
  ⟨[⟨BKind.decoratorK DecoratorKind.forwarder, [sampleLeaf]⟩]⟩

/-- The tree sampleOps builds. -/
def sampleTree : Tree Nat := ⟨Node.decorator DecoratorKind.forwarder [sampleLeaf]⟩

/-- A fluent chain opening and closing one inverter decorator. -/
def arityOps : List (BuildOp Nat) :=
  [BuildOp.decorator DecoratorKind.inverter, BuildOp.leaf sampleLeafFn, BuildOp.close]

/-- The builder state after running arityOps. -/
def arityState : BuilderState Nat :=
  ⟨[⟨BKind.decoratorK DecoratorKind.forwarder,
      [Node.decorator DecoratorKind.inverter [sampleLeaf]]⟩]⟩

/-- The tree arityOps builds. -/
def arityTree : Tree Nat :=
  ⟨Node.decorator DecoratorKind.forwarder [Node.decorator DecoratorKind.inverter [sampleLeaf]]⟩

/-- Appending child lists multiplies the arity invariant. -/
theorem childrenWF_append {C : Type} (a b : List (Node C)) :
    childrenWF (a ++ b) = (childrenWF a && childrenWF b) := by
  induction a with
  | nil => simp [childrenWF]
  | cons c rest ih => simp [childrenWF, ih, Bool.and_assoc]

/-- Closing a frame whose children satisfy the arity invariant, and which has
exactly one child when it is a DECORATOR frame, yields a node satisfying the
arity invariant. -/
theorem buildFrame_wellFormed {C : Type} {f : Frame C}
    (h1 : childrenWF f.children = true)
    (h2 : f.kind.isDecorator = true → f.children.length = 1) :
    (buildFrame f).wellFormed = true := by
  obtain ⟨k, children⟩ := f
  cases k with
  | compositeK k => simpa [buildFrame, Node.wellFormed] using h1
  | decoratorK k =>
      have hl : children.length = 1 := h2 (by rfl)
      simp_all [buildFrame, Node.wellFormed, BKind.isDecorator]

/-- When the one-child guard of _branch and _leaf lets an operation through
on a DECORATOR frame, that frame had no children yet. -/
theorem guard_empty {C : Type} {top : Frame C}
    (hguard : ¬(top.kind.isDecorator && !top.children.isEmpty) = true)
    (hd : top.kind.isDecorator = true) : top.children = [] := by
  cases he : top.children with
  | nil => rfl
  | cons a l => exact absurd (by simp [hd, he]) hguard

/-- Opening a fresh frame preserves the builder invariants. -/
theorem push_frame_inv {C : Type} {top : Frame C} {rest : List (Frame C)} (nk : BKind)
    (hdec : DecInv (top :: rest))
    (hguard : ¬(top.kind.isDecorator && !top.children.isEmpty) = true) :
    DecInv ((⟨nk, []⟩ : Frame C) :: top :: rest) ∧
    rootFrameKind ((⟨nk, []⟩ : Frame C) :: top :: rest) = rootFrameKind (top :: rest) ∧
    (WFInv (top :: rest) → WFInv ((⟨nk, []⟩ : Frame C) :: top :: rest)) := by
  obtain ⟨htop, hrest⟩ := hdec
  refine ⟨⟨fun _ => by simp, ?_⟩, rfl, fun hw => ?_⟩
  · intro f hf
    rcases List.mem_cons.mp hf with rfl | hf
    · exact guard_empty hguard
    · exact hrest f hf
  · intro f hf
    rcases List.mem_cons.mp hf with rfl | hf
    · rfl
    · exact hw f hf

/-- Appending a child that satisfies the arity invariant to the open frame
preserves the builder invariants. -/
theorem append_child_inv {C : Type} {top : Frame C} {rest : List (Frame C)} {x : Node C}
    (hdec : DecInv (top :: rest))
    (hguard : ¬(top.kind.isDecorator && !top.children.isEmpty) = true) :
    DecInv ({ top with children := top.children ++ [x] } :: rest) ∧
    rootFrameKind ({ top with children := top.children ++ [x] } :: rest) =
      rootFrameKind (top :: rest) ∧
    (x.wellFormed = true → WFInv (top :: rest) →
      WFInv ({ top with children := top.children ++ [x] } :: rest)) := by
  obtain ⟨htop, hrest⟩ := hdec
  refine ⟨⟨?_, hrest⟩, by cases rest <;> rfl, fun hx hw => ?_⟩
  · intro hd
    have := guard_empty hguard hd
    simp [this]
  · intro f hf
    rcases List.mem_cons.mp hf with rfl | hf
    · simpa [childrenWF_append, childrenWF, hx] using hw top (List.mem_cons_self _ _)
    · exact hw f (List.mem_cons_of_mem _ hf)

/-- Closing the open frame into its parent preserves the builder invariants. -/
theorem close_frame_inv {C : Type} {top parent : Frame C} {rest2 : List (Frame C)}
    (hdec : DecInv (top :: parent :: rest2))
    (hne : ¬top.children.isEmpty = true) :
    DecInv ({ parent with children := parent.children ++ [buildFrame top] } :: rest2) ∧
    rootFrameKind ({ parent with children := parent.children ++ [buildFrame top] } :: rest2) =
      rootFrameKind (top :: parent :: rest2) ∧
    (WFInv (top :: parent :: rest2) →
      WFInv ({ parent with children := parent.children ++ [buildFrame top] } :: rest2)) := by
  obtain ⟨htop, hrest⟩ := hdec
  have hpmem : parent ∈ parent :: rest2 := List.mem_cons_self _ _
  refine ⟨⟨?_, fun f hf => hrest f (List.mem_cons_of_mem parent hf)⟩, by cases rest2 <;> rfl,
    fun hw => ?_⟩
  · intro hd
    have : parent.children = [] := hrest parent hpmem hd
    simp [this]
  · intro f hf
    rcases List.mem_cons.mp hf with rfl | hf
    · have hparent : childrenWF parent.children = true :=
        hw parent (List.mem_cons_of_mem _ hpmem)
      have htopwf : childrenWF top.children = true := hw top (List.mem_cons_self _ _)
      have hbf : (buildFrame top).wellFormed = true := by
        refine buildFrame_wellFormed htopwf ?_
        intro hd
        have hle := htop hd
        have : top.children ≠ [] := by
          intro hnil; exact hne (by simp [hnil])
        cases hc : top.children with
        | nil => exact absurd hc this
        | cons a l => rw [hc] at hle; simp at hle; simp [hc, hle]
      simp [childrenWF_append, hparent, childrenWF, hbf]
    · exact hw f (List.mem_cons_of_mem top (List.mem_cons_of_mem parent hf))

/-- One builder step preserves the decorator child-count invariant, never
changes the kind of the implicit root frame, and (when an attached subtree
satisfies the arity invariant) preserves well-formedness of all collected
children. -/
theorem runOp_inv {C : Type} {s s2 : BuilderState C} {op : BuildOp C}
    (hdec : DecInv s.stack) (h : runOp s op = some s2) :
    DecInv s2.stack ∧ rootFrameKind s2.stack = rootFrameKind s.stack ∧
      (op.wf → WFInv s.stack → WFInv s2.stack) := by
  obtain ⟨stack⟩ := s
  match stack with
  | [] => simp [DecInv] at hdec
  | top :: rest =>
    cases op with
    | composite k =>
        simp only [runOp] at h
        split at h
        · exact absurd h (by simp)
        · next hguard =>
            injection h with h; subst h
            have := push_frame_inv (BKind.compositeK k) hdec hguard
            exact ⟨this.1, this.2.1, fun _ => this.2.2⟩
    | decorator k =>
        simp only [runOp] at h
        split at h
        · exact absurd h (by simp)
        · next hguard =>
            injection h with h; subst h
            have := push_frame_inv (BKind.decoratorK k) hdec hguard
            exact ⟨this.1, this.2.1, fun _ => this.2.2⟩
    | leaf f =>
        simp only [runOp] at h
        split at h
        · exact absurd h (by simp)
        · next hguard =>
            injection h with h; subst h
            have := append_child_inv (x := make_leaf f) hdec hguard
            exact ⟨this.1, this.2.1, fun _ => this.2.2 rfl⟩
    | boolLeaf f =>
        simp only [runOp] at h
        split at h
        · exact absurd h (by simp)
        · next hguard =>
            injection h with h; subst h
            have := append_child_inv (x := make_leaf_bool f) hdec hguard
            exact ⟨this.1, this.2.1, fun _ => this.2.2 rfl⟩
    | voidLeaf f =>
        simp only [runOp] at h
        split at h
        · exact absurd h (by simp)
        · next hguard =>
            injection h with h; subst h
            have := append_child_inv (x := make_leaf_void f) hdec hguard
            exact ⟨this.1, this.2.1, fun _ => this.2.2 rfl⟩
    | tree t =>
        simp only [runOp] at h
        split at h
        · exact absurd h (by simp)
        · next hguard =>
            injection h with h; subst h
            have := append_child_inv (x := t.root) hdec hguard
            exact ⟨this.1, this.2.1, fun hwf => this.2.2 hwf⟩
    | close =>
        simp only [runOp] at h
        split at h
        · exact absurd h (by simp)
        · next hne =>
            cases rest with
            | nil =>
                injection h with h; subst h
                exact ⟨hdec, rfl, fun _ hw => hw⟩
            | cons parent rest2 =>
                injection h with h; subst h
                have := close_frame_inv hdec hne
                exact ⟨this.1, this.2.1, fun _ => this.2.2⟩

/-- A run of builder calls preserves the builder invariants. -/
theorem runOps_inv {C : Type} {ops : List (BuildOp C)} {s s2 : BuilderState C}
    (hdec : DecInv s.stack) (h : runOps s ops = some s2) :
    DecInv s2.stack ∧ rootFrameKind s2.stack = rootFrameKind s.stack ∧
      ((∀ op ∈ ops, op.wf) → WFInv s.stack → WFInv s2.stack) := by
  induction ops generalizing s with
  | nil =>
      simp only [runOps] at h
      injection h with h; subst h
      exact ⟨hdec, rfl, fun _ hw => hw⟩
  | cons op ops ih =>
      simp only [runOps] at h
      cases hstep : runOp s op with
      | none => rw [hstep] at h; exact absurd h (by simp)
      | some s1 =>
          rw [hstep] at h
          have h1 := runOp_inv hdec hstep
          have h2 := ih h1.1 h
          refine ⟨h2.1, h2.2.1.trans h1.2.1, fun hwf hw => ?_⟩
          exact h2.2.2 (fun o ho => hwf o (List.mem_cons_of_mem _ ho))
            (h1.2.2 (hwf op (List.mem_cons_self _ _)) hw)

/-- The fresh builder satisfies the decorator child-count invariant. -/
theorem initState_decInv {C : Type} : DecInv (initState (C := C)).stack := by
  refine ⟨fun _ => by simp [initState], ?_⟩
  intro f hf
  simp [initState] at hf

/-- The fresh builder satisfies the well-formedness invariant. -/
theorem initState_wfInv {C : Type} : WFInv (initState (C := C)).stack := by
  intro f hf
  simp [initState] at hf
  subst hf
  rfl

/-- A built tree whose root frame was the forwarder DECORATOR frame has a
forwarder root with exactly one child. -/
theorem built_shape {C : Type} {s : BuilderState C} {t : Tree C}
    (hdec : DecInv s.stack)
    (hroot : rootFrameKind s.stack = some (BKind.decoratorK DecoratorKind.forwarder))
    (hb : buildTree s = some t) :
    ∃ c, t.root = Node.decorator DecoratorKind.forwarder [c] := by
  obtain ⟨stack⟩ := s
  match stack with
  | [] => simp [buildTree] at hb
  | [f] =>
      simp only [buildTree] at hb
      split at hb
      · exact absurd hb (by simp)
      · next hne =>
          injection hb with hb; subst hb
          have hkind : f.kind = BKind.decoratorK DecoratorKind.forwarder := by
            simpa [rootFrameKind] using hroot
          have hlen : f.children.length ≤ 1 := hdec.1 (by simp [hkind, BKind.isDecorator])
          cases hc : f.children with
          | nil => rw [hc] at hne; simp at hne
          | cons a l =>
              rw [hc] at hlen
              simp at hlen
              subst hlen
              exact ⟨a, by simp [buildFrame, hkind, hc]⟩
  | f :: g :: rest => simp [buildTree] at hb

/-- A built tree satisfies the decorator arity invariant. -/
theorem built_wellFormed {C : Type} {s : BuilderState C} {t : Tree C}
    (hdec : DecInv s.stack) (hwf : WFInv s.stack) (hb : buildTree s = some t) :
    t.root.wellFormed = true := by
  obtain ⟨stack⟩ := s
  match stack with
  | [] => simp [buildTree] at hb
  | [f] =>
      simp only [buildTree] at hb
      split at hb
      · exact absurd hb (by simp)
      · next hne =>
          injection hb with hb; subst hb
          refine buildFrame_wellFormed (hwf f (by simp)) ?_
          intro hd
          have hle := hdec.1 hd
          cases hc : f.children with
          | nil => rw [hc] at hne; simp at hne
          | cons a l => rw [hc] at hle; simp at hle; simp [hc, hle]
  | f :: g :: rest => simp [buildTree] at hb

mutual

/-- Under the decorator arity invariant the one-child assert of
make_branch(Decorator) never fires: process always returns a result. -/
theorem process_isSome {C : Type} :
    ∀ (n : Node C), n.wellFormed = true → ∀ ctx : C, (n.process ctx).isSome = true
  | .leaf f, _, ctx => rfl
  | .composite .sequence children, h, ctx => sequenceEval_isSome children h ctx
  | .composite .selector children, h, ctx => selectorEval_isSome children h ctx
  | .decorator .forwarder [c], h, ctx => by
      have hc : c.wellFormed = true := by
        simp [Node.wellFormed, childrenWF] at h; exact h
      simpa [Node.process] using process_isSome c hc ctx
  | .decorator .inverter [c], h, ctx => by
      have hc : c.wellFormed = true := by
        simp [Node.wellFormed, childrenWF] at h; exact h
      have := process_isSome c hc ctx
      obtain ⟨⟨st, ctx2⟩, hs⟩ := Option.isSome_iff_exists.mp this
      simp only [Node.process, hs]
      split <;> simp
  | .decorator .succeeder [c], h, ctx => by
      have hc : c.wellFormed = true := by
        simp [Node.wellFormed, childrenWF] at h; exact h
      have := process_isSome c hc ctx
      obtain ⟨⟨st, ctx2⟩, hs⟩ := Option.isSome_iff_exists.mp this
      simp [Node.process, hs]
  | .decorator _ [], h, ctx => by simp [Node.wellFormed] at h
  | .decorator _ (_ :: _ :: _), h, ctx => by simp [Node.wellFormed, List.length] at h
termination_by structural n => n

/-- Sequence evaluation of well-formed children always returns a result. -/
theorem sequenceEval_isSome {C : Type} :
    ∀ (l : List (Node C)), childrenWF l = true → ∀ ctx : C, (sequenceEval l ctx).isSome = true
  | [], _, ctx => rfl
  | c :: rest, h, ctx => by
      have hc : c.wellFormed = true := by
        simp [childrenWF] at h; exact h.1
      have hr : childrenWF rest = true := by
        simp [childrenWF] at h; exact h.2
      have := process_isSome c hc ctx
      obtain ⟨⟨st, ctx2⟩, hs⟩ := Option.isSome_iff_exists.mp this
      simp only [sequenceEval, hs]
      split
      · simp
      · exact sequenceEval_isSome rest hr ctx2
termination_by structural l => l

/-- Selector evaluation of well-formed children always returns a result. -/
theorem selectorEval_isSome {C : Type} :
    ∀ (l : List (Node C)), childrenWF l = true → ∀ ctx : C, (selectorEval l ctx).isSome = true
  | [], _, ctx => rfl
  | c :: rest, h, ctx => by
      have hc : c.wellFormed = true := by
        simp [childrenWF] at h; exact h.1
      have hr : childrenWF rest = true := by
        simp [childrenWF] at h; exact h.2
      have := process_isSome c hc ctx
      obtain ⟨⟨st, ctx2⟩, hs⟩ := Option.isSome_iff_exists.mp this
      simp only [selectorEval, hs]
      split
      · simp
      · exact selectorEval_isSome rest hr ctx2
termination_by structural l => l

end

mutual

/-- The node store of a tree has one entry per node: the root's stored
descendant count plus one. -/
theorem flatten_length {C : Type} :
    ∀ (n : Node C), n.flatten.length = n.descendent_count + 1
  | .leaf _ => rfl
  | .composite _ children => by
      simp [Node.flatten, Node.descendent_count, flattenList_length children, Nat.add_comm]
  | .decorator _ children => by
      simp [Node.flatten, Node.descendent_count, flattenList_length children, Nat.add_comm]
termination_by structural n => n

/-- The store entries of a child list number exactly its contribution to the
parent's stored descendant count. -/
theorem flattenList_length {C : Type} :
    ∀ (l : List (Node C)), (flattenList l).length = descListCount l
  | [] => rfl
  | c :: rest => by
      simp [flattenList, descListCount, flatten_length c, flattenList_length rest]
      omega
termination_by structural l => l

end

end Beehive


namespace Beehive

/-- C1: the header has no resumption state, so evaluation always restarts at
the root.  On the tree of the repository's own ResumePendingTest (sequence
of a succeed-once-then-fail leaf, a RUNNING-then-SUCCESS leaf, and a
counting bool leaf), the first call returns RUNNING with visit counts
(1, 1, 0), but the second call re-invokes the already-completed first child
(counts (2, 1, 0)) and returns FAILURE instead of resuming at the suspended
second child as the test and the spec require. -/
theorem resume_restarts_from_first_child :
    buildOf resumeOps = some resumeTree ∧
    resumeTree.process (0, 0, 0) = some (Status.RUNNING, (1, 1, 0)) ∧
    resumeTree.process (1, 1, 0) = some (Status.FAILURE, (2, 1, 0)) :=
  ⟨rfl, by decide, by decide⟩

/-- C2: the sequence composite runs its children in order: either every
child returns SUCCESS (threading the context) and SUCCESS is returned with
the fully threaded context, or the first child returning a status other
than SUCCESS (FAILURE or RUNNING) ends the traversal and exactly its status
and context are returned, with no later sibling invoked, or the first child
whose own evaluation hits a failed assert propagates that abort. -/
theorem sequence_spec {C : Type} (children : List (Node C)) (ctx : C) :
    (∃ ctx2, ThreadAll Status.SUCCESS children ctx ctx2 ∧
        sequenceEval children ctx = some (Status.SUCCESS, ctx2))
  ∨ (∃ pre c post ctx1 st ctx2, children = pre ++ c :: post ∧
        ThreadAll Status.SUCCESS pre ctx ctx1 ∧
        c.process ctx1 = some (st, ctx2) ∧ st ≠ Status.SUCCESS ∧
        sequenceEval children ctx = some (st, ctx2))
  ∨ (∃ pre c post ctx1, children = pre ++ c :: post ∧
        ThreadAll Status.SUCCESS pre ctx ctx1 ∧
        c.process ctx1 = none ∧ sequenceEval children ctx = none) := by
  induction children generalizing ctx with
  | nil => exact Or.inl ⟨ctx, ThreadAll.nil ctx, rfl⟩
  | cons c rest ih =>
    cases hc : c.process ctx with
    | none =>
      refine Or.inr (Or.inr ⟨[], c, rest, ctx, rfl, ThreadAll.nil ctx, hc, ?_⟩)
      simp [sequenceEval, hc]
    | some r =>
      obtain ⟨st, ctx1⟩ := r
      by_cases hst : st = Status.SUCCESS
      · subst hst
        rcases ih ctx1 with ⟨ctx2, hth, he⟩ |
            ⟨pre, c2, post, cx1, st2, cx2, heq, hth, hp, hne, he⟩ |
            ⟨pre, c2, post, cx1, heq, hth, hp, he⟩
        · refine Or.inl ⟨ctx2, ThreadAll.cons hc hth, ?_⟩
          simp [sequenceEval, hc, he]
        · refine Or.inr (Or.inl ⟨c :: pre, c2, post, cx1, st2, cx2, by simp [heq],
            ThreadAll.cons hc hth, hp, hne, ?_⟩)
          simp [sequenceEval, hc, he]
        · refine Or.inr (Or.inr ⟨c :: pre, c2, post, cx1, by simp [heq],
            ThreadAll.cons hc hth, hp, ?_⟩)
          simp [sequenceEval, hc, he]
      · refine Or.inr (Or.inl ⟨[], c, rest, ctx, st, ctx1, rfl, ThreadAll.nil ctx, hc, hst, ?_⟩)
        simp [sequenceEval, hc, hst]

/-- C3: the selector composite runs its children in order: either every
child returns FAILURE (threading the context) and FAILURE is returned with
the fully threaded context, or the first child returning a status other
than FAILURE (SUCCESS or RUNNING) ends the traversal and exactly its status
and context are returned, with no later sibling invoked, or the first child
whose own evaluation hits a failed assert propagates that abort. -/
theorem selector_spec {C : Type} (children : List (Node C)) (ctx : C) :
    (∃ ctx2, ThreadAll Status.FAILURE children ctx ctx2 ∧
        selectorEval children ctx = some (Status.FAILURE, ctx2))
  ∨ (∃ pre c post ctx1 st ctx2, children = pre ++ c :: post ∧
        ThreadAll Status.FAILURE pre ctx ctx1 ∧
        c.process ctx1 = some (st, ctx2) ∧ st ≠ Status.FAILURE ∧
        selectorEval children ctx = some (st, ctx2))
  ∨ (∃ pre c post ctx1, children = pre ++ c :: post ∧
        ThreadAll Status.FAILURE pre ctx ctx1 ∧
        c.process ctx1 = none ∧ selectorEval children ctx = none) := by
  induction children generalizing ctx with
  | nil => exact Or.inl ⟨ctx, ThreadAll.nil ctx, rfl⟩
  | cons c rest ih =>
    cases hc : c.process ctx with
    | none =>
      refine Or.inr (Or.inr ⟨[], c, rest, ctx, rfl, ThreadAll.nil ctx, hc, ?_⟩)
      simp [selectorEval, hc]
    | some r =>
      obtain ⟨st, ctx1⟩ := r
      by_cases hst : st = Status.FAILURE
      · subst hst
        rcases ih ctx1 with ⟨ctx2, hth, he⟩ |
            ⟨pre, c2, post, cx1, st2, cx2, heq, hth, hp, hne, he⟩ |
            ⟨pre, c2, post, cx1, heq, hth, hp, he⟩
        · refine Or.inl ⟨ctx2, ThreadAll.cons hc hth, ?_⟩
          simp [selectorEval, hc, he]
        · refine Or.inr (Or.inl ⟨c :: pre, c2, post, cx1, st2, cx2, by simp [heq],
            ThreadAll.cons hc hth, hp, hne, ?_⟩)
          simp [selectorEval, hc, he]
        · refine Or.inr (Or.inr ⟨c :: pre, c2, post, cx1, by simp [heq],
            ThreadAll.cons hc hth, hp, ?_⟩)
          simp [selectorEval, hc, he]
      · refine Or.inr (Or.inl ⟨[], c, rest, ctx, st, ctx1, rfl, ThreadAll.nil ctx, hc, hst, ?_⟩)
        simp [selectorEval, hc, hst]

/-- C4: the inverter invokes its single child once, returns SUCCESS when the
child returned FAILURE, FAILURE when the child returned SUCCESS, and passes
RUNNING through unchanged, with the child's one context update kept. -/
theorem inverter_spec {C : Type} (c : Node C) (ctx ctx2 : C) (st : Status)
    (h : c.process ctx = some (st, ctx2)) :
    (Node.decorator DecoratorKind.inverter [c]).process ctx =
      some ((match st with
        | Status.RUNNING => Status.RUNNING
        | Status.FAILURE => Status.SUCCESS
        | Status.SUCCESS => Status.FAILURE), ctx2) := by
  cases st <;> simp [Node.process, h]

/-- Witness for C4 at a concrete failing leaf. -/
theorem inverter_spec_witness :
    (Node.decorator DecoratorKind.inverter
      [Node.leaf (fun n : Nat => (Status.FAILURE, n + 1))]).process 0 =
      some (Status.SUCCESS, 1) :=
  inverter_spec (Node.leaf (fun n : Nat => (Status.FAILURE, n + 1))) 0 1 Status.FAILURE rfl

/-- C5: leaf adaptation.  A leaf from a Status-returning function returns
that Status and context update unchanged; a leaf from a bool-returning
function returns SUCCESS on true and FAILURE on false (and can never return
RUNNING); a leaf from a void function applies the function once and always
returns SUCCESS. -/
theorem leaf_adaptation {C : Type} (f : C → Status × C) (g : C → Bool × C)
    (v : C → C) (ctx : C) :
    (make_leaf f).process ctx = some (f ctx) ∧
    (make_leaf_bool g).process ctx =
      some ((if (g ctx).1 then Status.SUCCESS else Status.FAILURE), (g ctx).2) ∧
    (∀ ctx2 : C, (make_leaf_bool g).process ctx ≠ some (Status.RUNNING, ctx2)) ∧
    (make_leaf_void v).process ctx = some (Status.SUCCESS, v ctx) := by
  refine ⟨rfl, rfl, ?_, rfl⟩
  intro ctx2 hcontra
  simp only [make_leaf_bool, Node.process, Option.some.injEq, Prod.mk.injEq] at hcontra
  rcases hcontra with ⟨h1, h2⟩
  split at h1 <;> simp_all

/-- Witness for C5 at concrete leaf functions. -/
theorem leaf_adaptation_witness :
    (make_leaf_bool (fun n : Nat => (false, n + 3))).process 2 ≠
      some (Status.RUNNING, 5) ∧
    (make_leaf_void (fun n : Nat => n * 2)).process 2 = some (Status.SUCCESS, 4) :=
  ⟨(leaf_adaptation (fun n : Nat => (Status.SUCCESS, n)) (fun n => (false, n + 3))
      (fun n => n * 2) 2).2.2.1 5,
   (leaf_adaptation (fun n : Nat => (Status.SUCCESS, n)) (fun n => (false, n + 3))
      (fun n => n * 2) 2).2.2.2⟩

/-- C6: processing a default-constructed (empty) Tree returns SUCCESS and
leaves the context unchanged. -/
theorem empty_tree_noop {C : Type} (ctx : C) :
    Tree.process emptyTree ctx = some (Status.SUCCESS, ctx) := rfl

end Beehive

namespace Beehive

/-- C7: decorator arity enforcement.  Adding any further child (branch,
leaf of any shape, or attached subtree) to an open DECORATOR frame that
already has one is a fired assert; every tree a builder run produces (with
attached subtrees themselves satisfying the arity invariant) satisfies the
invariant that every DECORATOR node has exactly one child; and under that
invariant the evaluation-time one-child assert of make_branch(Decorator)
never fires. -/
theorem decorator_arity {C : Type} :
    (∀ (dk : DecoratorKind) (c : Node C) (cs : List (Node C)) (rest : List (Frame C))
        (op : BuildOp C), op.addsChild = true →
        runOp ⟨⟨BKind.decoratorK dk, c :: cs⟩ :: rest⟩ op = none) ∧
    (∀ (ops : List (BuildOp C)) (s : BuilderState C) (t : Tree C),
        (∀ op ∈ ops, op.wf) → runOps initState ops = some s → buildTree s = some t →
        t.root.wellFormed = true) ∧
    (∀ (n : Node C) (ctx : C), n.wellFormed = true → (n.process ctx).isSome = true) := by
  refine ⟨?_, ?_, ?_⟩
  · intro dk c cs rest op hadd
    cases op <;> simp_all [runOp, BKind.isDecorator, BuildOp.addsChild]
  · intro ops s t hops hr hb
    have h := runOps_inv initState_decInv hr
    exact built_wellFormed h.1 (h.2.2 hops initState_wfInv) hb
  · exact fun n ctx h => process_isSome n h ctx

/-- Witness for C7: a second child on a full decorator frame is rejected, a
concretely built decorator tree satisfies the invariant, and its evaluation
returns a result. -/
theorem decorator_arity_witness :
    runOp ⟨[⟨BKind.decoratorK DecoratorKind.forwarder, [sampleLeaf]⟩]⟩
        (BuildOp.voidLeaf (fun n : Nat => n)) = none ∧
    arityTree.root.wellFormed = true ∧
    ((sampleLeaf.process 0).isSome = true) :=
  ⟨decorator_arity.1 DecoratorKind.forwarder sampleLeaf [] []
      (BuildOp.voidLeaf (fun n : Nat => n)) rfl,
   decorator_arity.2.1 arityOps arityState arityTree
      (by intro op hop
          simp [arityOps] at hop
          rcases hop with rfl | rfl | rfl <;> trivial)
      rfl rfl,
   decorator_arity.2.2 sampleLeaf 0 rfl⟩

/-- C8: builder validation.  end() on a frame with no children is a fired
assert; build() while an inner frame is still open is a fired assert;
build() with a childless implicit root is a fired assert; otherwise build()
returns the tree whose root is the closed root frame over the accumulated
children. -/
theorem builder_validation {C : Type} :
    (∀ (k : BKind) (rest : List (Frame C)),
        runOp ⟨⟨k, []⟩ :: rest⟩ BuildOp.close = none) ∧
    (∀ (s : BuilderState C) (f g : Frame C) (rest : List (Frame C)),
        s.stack = f :: g :: rest → buildTree s = none) ∧
    (∀ f : Frame C, f.children = [] → buildTree ⟨[f]⟩ = none) ∧
    (∀ (f : Frame C) (c : Node C) (cs : List (Node C)), f.children = c :: cs →
        buildTree ⟨[f]⟩ = some ⟨buildFrame f⟩) := by
  refine ⟨?_, ?_, ?_, ?_⟩
  · intro k rest
    simp [runOp]
  · intro s f g rest hs
    obtain ⟨stack⟩ := s
    simp only at hs
    subst hs
    simp [buildTree]
  · intro f hf
    simp [buildTree, hf]
  · intro f c cs hf
    simp [buildTree, hf]

/-- Witness for C8 at concrete frames and stacks. -/
theorem builder_validation_witness :
    runOp (C := Nat) ⟨[⟨BKind.compositeK CompositeKind.sequence, []⟩]⟩ BuildOp.close = none ∧
    buildTree (C := Nat) ⟨[⟨BKind.compositeK CompositeKind.sequence, [sampleLeaf]⟩,
        ⟨BKind.decoratorK DecoratorKind.forwarder, []⟩]⟩ = none ∧
    buildTree (C := Nat) ⟨[⟨BKind.decoratorK DecoratorKind.forwarder, []⟩]⟩ = none ∧
    buildTree sampleState = some ⟨buildFrame ⟨BKind.decoratorK DecoratorKind.forwarder,
        [sampleLeaf]⟩⟩ :=
  ⟨builder_validation.1 (BKind.compositeK CompositeKind.sequence) [],
   builder_validation.2.1 _ ⟨BKind.compositeK CompositeKind.sequence, [sampleLeaf]⟩
      ⟨BKind.decoratorK DecoratorKind.forwarder, []⟩ [] rfl,
   builder_validation.2.2.1 ⟨BKind.decoratorK DecoratorKind.forwarder, []⟩ rfl,
   builder_validation.2.2.2 ⟨BKind.decoratorK DecoratorKind.forwarder, [sampleLeaf]⟩
      sampleLeaf [] rfl⟩

/-- C9: node-store arithmetic.  In the depth-first pre-order node store of
any tree, the stored descendant count of the root plus one equals the total
number of store entries. -/
theorem node_store_arithmetic {C : Type} (t : Tree C) :
    t.root.flatten.length = t.root.descendent_count + 1 :=
  flatten_length t.root

/-- C10: every tree a builder run produces has the forwarder decorator as
its root with exactly one child; adding a second top-level child to the
root frame (a DECORATOR frame) is a fired assert; and processing a tree
with a one-child forwarder root returns exactly the child's outcome. -/
theorem implicit_root_forwarder {C : Type} :
    (∀ (ops : List (BuildOp C)) (s : BuilderState C) (t : Tree C),
        runOps initState ops = some s → buildTree s = some t →
        isForwarderSingleton t.root = true) ∧
    (∀ (c : Node C) (cs : List (Node C)) (op : BuildOp C), op.addsChild = true →
        runOp ⟨[⟨BKind.decoratorK DecoratorKind.forwarder, c :: cs⟩]⟩ op = none) ∧
    (∀ (c : Node C) (ctx : C),
        Tree.process ⟨Node.decorator DecoratorKind.forwarder [c]⟩ ctx = c.process ctx) := by
  refine ⟨?_, ?_, ?_⟩
  · intro ops s t hr hb
    have h := runOps_inv initState_decInv hr
    have hroot : rootFrameKind s.stack = some (BKind.decoratorK DecoratorKind.forwarder) := by
      rw [h.2.1]; rfl
    obtain ⟨c, hc⟩ := built_shape h.1 hroot hb
    simp [hc, isForwarderSingleton]
  · intro c cs op hadd
    cases op <;> simp_all [runOp, BKind.isDecorator, BuildOp.addsChild]
  · intro c ctx
    rfl

/-- Witness for C10 at a one-leaf build. -/
theorem implicit_root_forwarder_witness :
    isForwarderSingleton sampleTree.root = true ∧
    runOp ⟨[⟨BKind.decoratorK DecoratorKind.forwarder, [sampleLeaf]⟩]⟩
        (BuildOp.leaf sampleLeafFn) = none ∧
    Tree.process ⟨Node.decorator DecoratorKind.forwarder [sampleLeaf]⟩ 0 =
      sampleLeaf.process 0 :=
  ⟨implicit_root_forwarder.1 sampleOps sampleState sampleTree rfl rfl,
   implicit_root_forwarder.2.1 sampleLeaf [] (BuildOp.leaf sampleLeafFn) rfl,
   implicit_root_forwarder.2.2 sampleLeaf 0⟩

end Beehive
